import Mathlib

/-
Verification development for the hedge-fund index repository.

The Python sources are shallowly embedded as executable Lean definitions:
  - utils/ticker_mapping.py  : TickerMapping (CSV-backed name to ticker/sector cache)
  - utils/yf_util.py         : get_stock_info_batch (batch enrichment)
  - utils/reassemble_data.py and HedgeFundSearchEngine._load_from_chunks : chunk reassembly
  - utils/search_utils.py    : HedgeFundSearchEngine (index build, search, aggregation)

Strings are Lean String (lists of characters); Python str methods used by the
code (lower, upper, strip, replace, the word/ticker regexes, substring test,
lexicographic comparison) are modelled character by character below.  Python
dicts are modelled as insertion-ordered association lists, matching the
iteration-order semantics the code relies on.  Monetary values are Int; the
floating-point percentage arithmetic is modelled exactly over the rationals.
-/

set_option maxRecDepth 4096

/-! ## Python string primitives -/

/-- Python whitespace test used by str.strip. -/
def wsChar (c : Char) : Bool := c.isWhitespace

/-- Characters of str.strip: drop leading and trailing whitespace. -/
def stripChars (l : List Char) : List Char :=
  ((l.dropWhile wsChar).reverse.dropWhile wsChar).reverse

/-- Python str.strip. -/
def pyStrip (s : String) : String := ⟨stripChars s.data⟩

/-- Python str.lower (ASCII, which covers the data this code handles). -/
def pyLower (s : String) : String := ⟨s.data.map Char.toLower⟩

/-- Python str.upper (ASCII). -/
def pyUpper (s : String) : String := ⟨s.data.map Char.toUpper⟩

/-- Python str.replace (single-character pattern, empty replacement). -/
def removeChar (c : Char) (s : String) : String := ⟨s.data.filter (fun d => d != c)⟩

/-- Word character of the regex backslash-w (ASCII). -/
def wordChar (c : Char) : Bool := c.isAlphanum || c == '_'

/-- Maximal runs of word characters; re.findall of a word-bounded backslash-w-plus
pattern returns exactly these runs. -/
def wordRunsAux : List Char → List Char → List (List Char)
  | [], acc => if acc.isEmpty then [] else [acc.reverse]
  | c :: cs, acc =>
      if wordChar c then wordRunsAux cs (c :: acc)
      else if acc.isEmpty then wordRunsAux cs [] else acc.reverse :: wordRunsAux cs []

/-- re.findall of word-bounded word-character runs, as strings. -/
def wordTokens (s : String) : List String := (wordRunsAux s.data []).map (fun l => ⟨l⟩)

/-- Uppercase ASCII letter test. -/
def upperAZ (c : Char) : Bool := decide ('A' ≤ c) && decide (c ≤ 'Z')

/-- re.findall of word-bounded runs of 1 to 5 uppercase letters: exactly the
maximal word-character runs that consist solely of A-Z and have length at
most 5 (a run adjacent to further word characters has no boundary). -/
def tickerTokens (s : String) : List String :=
  ((wordRunsAux s.data []).filter
    (fun l => l.all upperAZ && decide (1 ≤ l.length) && decide (l.length ≤ 5))).map
    (fun l => ⟨l⟩)

/-- Does the text start with the given pattern. -/
def startsWithL : List Char → List Char → Bool
  | [], _ => true
  | _ :: _, [] => false
  | p :: ps, t :: ts => p == t && startsWithL ps ts

/-- Substring containment, the Python `in` test on strings. -/
def hasSubstr (pat : List Char) : List Char → Bool
  | [] => pat.isEmpty
  | c :: ts => startsWithL pat (c :: ts) || hasSubstr pat ts

/-- Python `needle in hay` for strings. -/
def pyContains (hay needle : String) : Bool := hasSubstr needle.data hay.data

/-- Python string less-than: lexicographic by code point. -/
def pyStrLtChars : List Char → List Char → Bool
  | [], [] => false
  | [], _ :: _ => true
  | _ :: _, [] => false
  | a :: xs, b :: ys =>
      if a.val < b.val then true else if b.val < a.val then false else pyStrLtChars xs ys

/-- Python string less-or-equal. -/
def pyStrLeB (a b : String) : Bool := !(pyStrLtChars b.data a.data)

/-! ## Generic list machinery: stable sort, first-occurrence distinct,
insertion-ordered dictionaries -/

/-- Insert into a le-sorted list, before the first element it is le to. -/
def insertSorted (le : α → α → Bool) (x : α) : List α → List α
  | [] => [x]
  | y :: ys => if le x y then x :: y :: ys else y :: insertSorted le x ys

/-- Stable insertion sort (models Python sorted and the pandas sorts used
by the code at the call sites the claims exercise). -/
def sortByB (le : α → α → Bool) (l : List α) : List α := l.foldr (insertSorted le) []

/-- Distinct elements keeping first occurrences. -/
def distinctL [DecidableEq α] (l : List α) : List α :=
  l.foldl (fun acc x => if x ∈ acc then acc else acc ++ [x]) []

/-- Python dict read: the unique binding for a key, if present. -/
def lookupDict [DecidableEq κ] : List (κ × β) → κ → Option β
  | [], _ => none
  | (k2, v) :: rest, k => if k2 = k then some v else lookupDict rest k

/-- Python dict write: update in place, or append a new binding. -/
def insertDict [DecidableEq κ] : List (κ × β) → κ → β → List (κ × β)
  | [], k, v => [(k, v)]
  | (k2, v2) :: rest, k, v =>
      if k2 = k then (k2, v) :: rest else (k2, v2) :: insertDict rest k v

/-! ## utils/ticker_mapping.py : the Ticker-Sector Cache -/

/-- One in-memory cache value of TickerMapping.mapping. -/
structure CacheEntry where
  ticker : String
  sector : String
  source : String
  lastUpdated : String
deriving DecidableEq, Repr

/-- One row of the persisted CSV file (company_ticker.csv). -/
structure FileRow where
  companyName : String
  ticker : String
  sector : String
  source : String
  lastUpdated : String
deriving DecidableEq, Repr

/-- The normalisation str(name).upper().strip() applied to company names. -/
def pyNormName (s : String) : String := pyStrip (pyUpper s)

/-- TickerMapping.load_mapping: build the in-memory dict from the CSV rows;
a later row with the same normalised name overwrites an earlier one. -/
def load_mapping (file : List FileRow) : List (String × CacheEntry) :=
  file.foldl
    (fun m r => insertDict m (pyNormName r.companyName) ⟨r.ticker, r.sector, r.source, r.lastUpdated⟩)
    []

/-- TickerMapping.get_ticker. -/
def get_ticker (mem : List (String × CacheEntry)) (companyName : String) : Option String :=
  (lookupDict mem (pyNormName companyName)).map (fun e => e.ticker)

/-- TickerMapping.get_sector. -/
def get_sector (mem : List (String × CacheEntry)) (companyName : String) : Option String :=
  (lookupDict mem (pyNormName companyName)).map (fun e => e.sector)

/-- TickerMapping.get_info. -/
def get_info (mem : List (String × CacheEntry)) (companyName : String) : Option CacheEntry :=
  lookupDict mem (pyNormName companyName)

/-- The should_update decision of TickerMapping.add_mapping.  (The third
elif branch of the source repeats the first condition and is redundant.) -/
def shouldUpdateB (existingSector existingSource newSector newSource : String) : Bool :=
  (existingSector == "Unknown" && newSector != "Unknown")
    || (existingSource == "auto"
          && decide (newSource ∈ (["yfinance", "openai", "manual"] : List String)))

/-- Replace the first row satisfying the predicate, df.loc on existing_idx[0]. -/
def updateFirst (p : FileRow → Bool) (f : FileRow → FileRow) : List FileRow → List FileRow
  | [] => []
  | r :: rest => if p r then f r :: rest else r :: updateFirst p f rest

/-- The case-insensitive existing-row mask of add_mapping. -/
def rowMatches (clean : String) (r : FileRow) : Bool := pyNormName r.companyName == clean

/-- TickerMapping.add_mapping on the pair (CSV rows, in-memory dict).  The CSV
side applies the overwrite policy to the first matching row (updating ticker,
sector, source and date but not the stored company_name) or appends a new row
with the raw company name; the in-memory dict is then assigned the new values
unconditionally, exactly as in the source.  `today` stands for the formatted
datetime.now() date; the surrounding try/except only concerns real file IO,
which this pure model has no counterpart of. -/
def add_mapping (file : List FileRow) (mem : List (String × CacheEntry))
    (companyName ticker sector source today : String) :
    List FileRow × List (String × CacheEntry) :=
  let clean := pyNormName companyName
  let file2 :=
    match file.find? (rowMatches clean) with
    | some r =>
        if shouldUpdateB r.sector r.source sector source then
          updateFirst (rowMatches clean)
            (fun row => { row with ticker := ticker, sector := sector, source := source, lastUpdated := today })
            file
        else file
    | none => file ++ [⟨companyName, ticker, sector, source, today⟩]
  let mem2 := insertDict mem clean ⟨ticker, sector, source, today⟩
  (file2, mem2)

/-! ## utils/yf_util.py : batch enrichment -/

/-- One value of the dict returned by get_stock_info_batch. -/
structure StockInfo where
  priceChange : Option ℚ
  sector : String
deriving DecidableEq, Repr

/-- The body of the per-ticker loop of get_stock_info_batch: fetch the price
change, then the sector; any exception from either external call degrades
that entry to (none, Unknown).  The two external calls are parameters since
they reach the network. -/
def processTicker (priceOracle : String → Except String (Option ℚ))
    (sectorOracle : String → Option String → Except String String)
    (names : String → Option String) (t : String) : StockInfo :=
  match priceOracle t with
  | Except.error _ => ⟨none, "Unknown"⟩
  | Except.ok pc =>
      match sectorOracle t (names t) with
      | Except.error _ => ⟨none, "Unknown"⟩
      | Except.ok sec => ⟨pc, sec⟩

/-- get_stock_info_batch: one results-dict entry per ticker, written in input
order.  (The time.sleep pacing has no observable effect on the result.) -/
def get_stock_info_batch (priceOracle : String → Except String (Option ℚ))
    (sectorOracle : String → Option String → Except String String)
    (names : String → Option String) (tickers : List String) : List (String × StockInfo) :=
  tickers.foldl (fun res t => insertDict res t (processTicker priceOracle sectorOracle names t)) []

/-! ## Chunk reassembly: utils/reassemble_data.py and _load_from_chunks -/

/-- A chunk file on disk: its filename, header line and data lines. -/
structure ChunkFile where
  name : String
  header : String
  rows : List String
deriving DecidableEq, Repr

/-- The filename pattern of split_data.py. -/
def chunkFileName (n : Nat) : String := "INFOTABLE_chunk_" ++ toString n ++ ".tsv"

/-- Chunk reassembly shared by reassemble_infotable and _load_from_chunks:
select the files whose name starts with INFOTABLE_chunk_, sort the names with
Python sorted (lexicographic by code point), keep the first header only, and
concatenate every data row in that file order.  Returns none when no chunk
file is present (the source exits with an error). -/
def loadFromChunks (dir : List ChunkFile) : Option (String × List String) :=
  let files := sortByB (fun a b => pyStrLeB a.name b.name)
    (dir.filter (fun f => startsWithL "INFOTABLE_chunk_".data f.name.data))
  match files with
  | [] => none
  | first :: _ => some (first.header, files.flatMap (fun f => f.rows))

/-! ## utils/search_utils.py : HedgeFundSearchEngine, data model -/

/-- One COVERPAGE.tsv row (the columns the engine reads); FILINGMANAGER_NAME
may be null. -/
structure CoverRow where
  accession : String
  managerName : Option String
deriving DecidableEq, Repr

/-- One INFOTABLE.tsv row (the columns the engine reads). -/
structure InfoRow where
  accession : String
  nameOfIssuer : String
  titleOfClass : String
  value : Int
  sshPrnamt : Int
  cusip : String
  putCall : String
deriving DecidableEq, Repr

/-- One fund_lookup bucket entry. -/
structure FundRef where
  name : String
  accession : String
deriving DecidableEq, Repr

/-- One ticker_lookup bucket entry. -/
structure SecRef where
  name : String
  cusip : String
  titleClass : String
deriving DecidableEq, Repr

/-- The loaded engine: the two tables the indexed operations read. -/
structure Engine where
  cover : List CoverRow
  info : List InfoRow
deriving DecidableEq, Repr

/-! ## Lookup index construction -/

/-- The search keys generated for one (already stripped) fund name: the
lowercased name, the same with commas, periods and spaces removed, and every
word token of the lowercased name. -/
def fundKeys (name : String) : List String :=
  let ln := pyLower name
  [ln, removeChar ',' ln, removeChar '.' ln, removeChar ' ' ln] ++ wordTokens ln

/-- The search keys generated for one issuer name: the lowercased name, the
lowercased ticker-like tokens of the raw name, and every word token of the
lowercased name. -/
def secKeys (rawName : String) : List String :=
  let ln := pyLower rawName
  [ln] ++ (tickerTokens rawName).map pyLower ++ wordTokens ln

/-- Append an entry to the bucket of a key, creating the bucket at the end of
the dict when the key is new (fund index: duplicates are kept). -/
def bucketAppend : List (String × List β) → String → β → List (String × List β)
  | [], k, e => [(k, [e])]
  | (k2, b) :: rest, k, e =>
      if k2 = k then (k2, b ++ [e]) :: rest else (k2, b) :: bucketAppend rest k e

/-- Append an entry to the bucket of a key unless an entry with the same name
is already there (ticker index: first occurrence of each issuer name wins). -/
def bucketAppendNew (nameOf : β → String) : List (String × List β) → String → β → List (String × List β)
  | [], k, e => [(k, [e])]
  | (k2, b) :: rest, k, e =>
      if k2 = k then
        if decide (nameOf e ∈ b.map nameOf) then (k2, b) :: rest else (k2, b ++ [e]) :: rest
      else (k2, b) :: bucketAppendNew nameOf rest k e

/-- _build_fund_lookup: index every coverpage row whose manager name is
neither null nor blank, under all of its keys, storing the stripped name. -/
def buildFundLookup (rows : List CoverRow) : List (String × List FundRef) :=
  rows.foldl
    (fun lk row =>
      match row.managerName with
      | none => lk
      | some raw =>
          if pyStrip raw = "" then lk
          else
            let nm := pyStrip raw
            (fundKeys nm).foldl (fun lk2 k => bucketAppend lk2 k ⟨nm, row.accession⟩) lk)
    []

/-- _build_ticker_lookup: index only the first 100000 position rows. -/
def buildTickerLookup (rows : List InfoRow) : List (String × List SecRef) :=
  (rows.take 100000).foldl
    (fun lk row =>
      (secKeys row.nameOfIssuer).foldl
        (fun lk2 k => bucketAppendNew SecRef.name lk2 k ⟨row.nameOfIssuer, row.cusip, row.titleOfClass⟩)
        lk)
    []

/-! ## The two-tier search -/

/-- Append an entry unless its display name was already collected
(seen_names de-duplication). -/
def addIfNew (nameOf : β → String) (acc : List β × List String) (x : β) : List β × List String :=
  if nameOf x ∈ acc.2 then acc else (acc.1 ++ [x], acc.2 ++ [nameOf x])

/-- The inner loop of the substring tier: take new entries from one bucket,
breaking as soon as the result reaches the limit. -/
def scanBucket (nameOf : β → String) (limit : Nat) :
    List β → List β × List String → List β × List String
  | [], acc => acc
  | x :: rest, acc =>
      if nameOf x ∈ acc.2 then scanBucket nameOf limit rest acc
      else
        let acc2 := (acc.1 ++ [x], acc.2 ++ [nameOf x])
        if limit ≤ acc2.1.length then acc2 else scanBucket nameOf limit rest acc2

/-- The outer loop of the substring tier: every dict key containing the query
contributes its bucket while the result is still below the limit. -/
def scanKeys (nameOf : β → String) (q : String) (limit : Nat) :
    List (String × List β) → List β × List String → List β × List String
  | [], acc => acc
  | (k, b) :: rest, acc =>
      let acc2 :=
        if pyContains k q && decide (acc.1.length < limit) then scanBucket nameOf limit b acc
        else acc
      scanKeys nameOf q limit rest acc2

/-- The shared body of search_funds and search_securities: normalise the
query, take the exact-key bucket first, then the substring scan over all
keys, and truncate to the limit. -/
def searchIndex (nameOf : β → String) (lk : List (String × List β))
    (query : String) (limit : Nat) : List β :=
  let q := pyStrip (pyLower query)
  let direct := (lookupDict lk q).getD []
  let acc0 := direct.foldl (addIfNew nameOf) ([], [])
  let acc1 := scanKeys nameOf q limit lk acc0
  acc1.1.take limit

/-- HedgeFundSearchEngine.search_funds. -/
def searchFunds (e : Engine) (query : String) (limit : Nat) : List FundRef :=
  searchIndex FundRef.name (buildFundLookup e.cover) query limit

/-- HedgeFundSearchEngine.search_securities. -/
def searchSecurities (e : Engine) (query : String) (limit : Nat) : List SecRef :=
  searchIndex SecRef.name (buildTickerLookup e.info) query limit

/-! ## Holdings and holder aggregation -/

/-- One aggregated (issuer, class) group of get_fund_holdings before the
percentage column is added. -/
structure GroupRow where
  issuer : String
  titleClass : String
  value : Int
  sshPrnamt : Int
  cusip : String
  putCall : String
deriving DecidableEq, Repr

/-- One output row of get_fund_holdings. -/
structure HoldingRow where
  issuer : String
  titleClass : String
  value : Int
  sshPrnamt : Int
  cusip : String
  putCall : String
  portfolioPct : ℚ
deriving DecidableEq, Repr

/-- Lexicographic order on (issuer, class) pairs, the pandas groupby key
order. -/
def pairLeB (a b : String × String) : Bool :=
  if pyStrLtChars a.1.data b.1.data then true
  else if pyStrLtChars b.1.data a.1.data then false
  else pyStrLeB a.2 b.2

/-- groupby([NAMEOFISSUER, TITLEOFCLASS]) with sum over VALUE and SSHPRNAMT
and first over CUSIP and PUTCALL: one row per distinct key, keys in sorted
order as pandas produces them. -/
def groupPositions (rows : List InfoRow) : List GroupRow :=
  let keys := sortByB pairLeB (distinctL (rows.map (fun r => (r.nameOfIssuer, r.titleOfClass))))
  keys.map (fun k =>
    let sub := rows.filter (fun r => decide (r.nameOfIssuer = k.1) && decide (r.titleOfClass = k.2))
    { issuer := k.1, titleClass := k.2,
      value := (sub.map InfoRow.value).sum,
      sshPrnamt := (sub.map InfoRow.sshPrnamt).sum,
      cusip := ((sub.head?).map InfoRow.cusip).getD "",
      putCall := ((sub.head?).map InfoRow.putCall).getD "" })

/-- The positions belonging to the up-to-5 fund matches of a query. -/
def matchedHoldings (e : Engine) (query : String) : List InfoRow :=
  let accs := (searchFunds e query 5).map FundRef.accession
  e.info.filter (fun r => decide (r.accession ∈ accs))

/-- Descending-by-VALUE comparison for holding rows. -/
def holdingDescLe (a b : HoldingRow) : Bool := decide (b.value ≤ a.value)

/-- Attach the portfolio_pct column: VALUE over the summed group total,
times 100, exactly over the rationals. -/
def annotatePct (tot : Int) (g : GroupRow) : HoldingRow :=
  ⟨g.issuer, g.titleClass, g.value, g.sshPrnamt, g.cusip, g.putCall,
    ((g.value : ℚ) / (tot : ℚ)) * 100⟩

/-- HedgeFundSearchEngine.get_fund_holdings. -/
def getFundHoldings (e : Engine) (query : String) (topN : Nat) : List HoldingRow :=
  let hs := matchedHoldings e query
  if hs.isEmpty then []
  else
    let agg := groupPositions hs
    let tot := (agg.map GroupRow.value).sum
    (sortByB holdingDescLe (agg.map (annotatePct tot))).take topN

/-- One output row of get_security_holders. -/
structure HolderRow where
  manager : String
  value : Int
  sshPrnamt : Int
deriving DecidableEq, Repr

/-- Descending-by-VALUE comparison for holder rows. -/
def holderDescLe (a b : HolderRow) : Bool := decide (b.value ≤ a.value)

/-- HedgeFundSearchEngine.get_security_holders: resolve up to 10 security
matches, collect their positions, inner-join the coverpage on the accession
number, group by manager name (pandas drops null group keys), sum, sort
descending by value, truncate. -/
def getSecurityHolders (e : Engine) (query : String) (topN : Nat) : List HolderRow :=
  let names := (searchSecurities e query 10).map SecRef.name
  let hs := e.info.filter (fun r => decide (r.nameOfIssuer ∈ names))
  let joined := hs.flatMap (fun h =>
    (e.cover.filter (fun c => decide (c.accession = h.accession))).filterMap
      (fun c => c.managerName.map (fun nm => (nm, h.value, h.sshPrnamt))))
  let keys := sortByB pyStrLeB (distinctL (joined.map (fun j => j.1)))
  let groups := keys.map (fun k =>
    let sub := joined.filter (fun j => decide (j.1 = k))
    HolderRow.mk k ((sub.map (fun j => j.2.1)).sum) ((sub.map (fun j => j.2.2)).sum))
  (sortByB holderDescLe groups).take topN

/-! ## Fund statistics -/

/-- pandas Series.median over exact rationals: middle of the sorted values,
or the mean of the two middle values (0 for an empty series, a case the
caller never reaches). -/
def medianQ (l : List ℚ) : ℚ :=
  let s := sortByB (fun a b => decide (a ≤ b)) l
  let n := s.length
  if n = 0 then 0
  else if n % 2 = 1 then s.getD (n / 2) 0
  else (s.getD (n / 2 - 1) 0 + s.getD (n / 2) 0) / 2

/-- The statistics dict built by get_fund_statistics. -/
structure FundStats where
  totalPortfolioValue : Int
  totalPositions : Nat
  uniqueSecurities : Nat
  topHolding : String
  topHoldingValue : Int
  topHoldingPct : ℚ
  avgPositionSize : ℚ
  medianPositionSize : ℚ
deriving DecidableEq, Repr

/-- Either the not-found error dict or the statistics dict. -/
inductive FundStatsResult where
  | notFound (message : String) : FundStatsResult
  | stats (s : FundStats) : FundStatsResult
deriving DecidableEq, Repr

/-- HedgeFundSearchEngine.get_fund_statistics: holdings with top_n 1000;
an error dict when they are empty, the aggregate statistics otherwise. -/
def getFundStatistics (e : Engine) (query : String) : FundStatsResult :=
  match getFundHoldings e query 1000 with
  | [] => FundStatsResult.notFound ("Fund \"" ++ query ++ "\" not found")
  | top :: rest =>
      let holdings := top :: rest
      FundStatsResult.stats
        { totalPortfolioValue := (holdings.map HoldingRow.value).sum
          totalPositions := holdings.length
          uniqueSecurities := (distinctL (holdings.map HoldingRow.issuer)).length
          topHolding := top.issuer
          topHoldingValue := top.value
          topHoldingPct := top.portfolioPct
          avgPositionSize := ((holdings.map HoldingRow.value).sum : ℚ) / (holdings.length : ℚ)
          medianPositionSize := medianQ (holdings.map (fun r => (r.value : ℚ))) }

/-! ## String lemmas -/

theorem startsWithL_refl (l : List Char) : startsWithL l l = true := by
  induction l with
  | nil => rfl
  | cons c cs ih => simp [startsWithL, ih]

/-- The empty pattern is a substring of every string. -/
theorem hasSubstr_nil (l : List Char) : hasSubstr [] l = true := by
  cases l with
  | nil => rfl
  | cons c cs => simp [hasSubstr, startsWithL]

/-- Every string is a substring of itself. -/
theorem hasSubstr_self (l : List Char) : hasSubstr l l = true := by
  cases l with
  | nil => rfl
  | cons c cs => simp [hasSubstr, startsWithL_refl]

theorem dropWhile_dropWhile (p : α → Bool) (l : List α) :
    List.dropWhile p (List.dropWhile p l) = List.dropWhile p l := by
  induction l with
  | nil => rfl
  | cons c cs ih =>
      by_cases h : p c = true
      · simp [List.dropWhile_cons, h, ih]
      · simp [List.dropWhile_cons, h]

theorem dropWhile_eq_self_of_head (p : α → Bool) (l : List α)
    (h : ∀ c, l.head? = some c → p c = false) : List.dropWhile p l = l := by
  cases l with
  | nil => rfl
  | cons c cs => simp [List.dropWhile_cons, h c rfl]

/-- Stripping is idempotent. -/
theorem stripChars_idem (l : List Char) : stripChars (stripChars l) = stripChars l := by
  unfold stripChars
  set A := l.dropWhile wsChar with hA
  set M := A.reverse.dropWhile wsChar with hM
  have h1 : M.reverse.dropWhile wsChar = M.reverse := by
    apply dropWhile_eq_self_of_head
    intro c hc
    have hsuf : M <:+ A.reverse := hM ▸ List.dropWhile_suffix wsChar
    have hpre : M.reverse <+: A := by
      have h2 := List.reverse_prefix.mpr hsuf
      simpa using h2
    obtain ⟨t, ht⟩ := hpre
    cases hMr : M.reverse with
    | nil => rw [hMr] at hc; cases hc
    | cons d ds =>
        rw [hMr] at hc ht
        injection hc with hdc
        have hhead : A.head? = some d := by rw [← ht]; rfl
        have h3 := List.head?_dropWhile_not wsChar l
        rw [← hA] at h3
        simp only [hhead] at h3
        rw [← hdc]
        exact h3
  have h2 : M.dropWhile wsChar = M := by
    rw [hM]
    exact dropWhile_dropWhile wsChar A.reverse
  rw [h1, List.reverse_reverse, h2]

/-- Python str.strip is idempotent. -/
theorem pyStrip_idem (s : String) : pyStrip (pyStrip s) = pyStrip s :=
  congrArg String.mk (stripChars_idem s.data)

/-! ## Sorting and folding lemmas -/

theorem insertSorted_perm (le : α → α → Bool) (x : α) (l : List α) :
    (insertSorted le x l).Perm (x :: l) := by
  induction l with
  | nil => exact List.Perm.refl _
  | cons y ys ih =>
      by_cases h : le x y = true
      · simp [insertSorted, h]
      · simp only [insertSorted, h, Bool.false_eq_true, if_false]
        exact (ih.cons y).trans (List.Perm.swap x y ys)

/-- The stable insertion sort is a permutation of its input. -/
theorem sortByB_perm (le : α → α → Bool) (l : List α) : (sortByB le l).Perm l := by
  induction l with
  | nil => exact List.Perm.refl _
  | cons x xs ih =>
      exact (insertSorted_perm le x (sortByB le xs)).trans (ih.cons x)

/-- A property of the accumulator preserved by every step survives a foldl,
with membership of the step element available. -/
theorem foldl_preserves_mem {γ : Type u} {δ : Type v} (g : γ → δ → γ) (P : γ → Prop)
    (l : List δ) (h : ∀ c k, k ∈ l → P c → P (g c k)) (c : γ) (hc : P c) :
    P (l.foldl g c) := by
  induction l generalizing c with
  | nil => exact hc
  | cons k rest ih =>
      exact ih (fun c2 k2 hk2 => h c2 k2 (List.mem_cons_of_mem k hk2)) (g c k)
        (h c k (List.mem_cons_self k rest) hc)

/-- A dictionary hit is a binding of the association list. -/
theorem lookupDict_mem [DecidableEq κ] (m : List (κ × β)) (k : κ) (v : β)
    (h : lookupDict m k = some v) : (k, v) ∈ m := by
  induction m with
  | nil => cases h
  | cons p rest ih =>
      obtain ⟨k2, v2⟩ := p
      by_cases h2 : k2 = k
      · subst h2
        simp [lookupDict] at h
        subst h
        exact List.mem_cons_self _ _
      · simp [lookupDict, h2] at h
        exact List.mem_cons_of_mem _ (ih h)

/-! ## C4 and C7 support: holdings arithmetic -/

theorem groupPositions_nil : groupPositions [] = [] := rfl

/-- When some position matched, get_fund_holdings reduces to the
annotate-sort-truncate pipeline over the grouped rows. -/
theorem getFundHoldings_eq (e : Engine) (q : String) (topN : Nat)
    (hne : matchedHoldings e q ≠ []) :
    getFundHoldings e q topN =
      (sortByB holdingDescLe ((groupPositions (matchedHoldings e q)).map
        (annotatePct (((groupPositions (matchedHoldings e q)).map GroupRow.value).sum)))).take
        topN := by
  have h : (matchedHoldings e q).isEmpty = false := by
    cases h2 : matchedHoldings e q with
    | nil => exact absurd h2 hne
    | cons a l => rfl
  simp only [getFundHoldings, h, Bool.false_eq_true, if_false]

/-- Exact-rational percentage arithmetic of the annotate-sort-truncate
pipeline: with the truncation inactive, the percentage column sums to 100 and
each row carries its value as a share of the summed, returned values. -/
theorem pct_core (agg : List GroupRow) (topN : Nat) (hN : agg.length ≤ topN)
    (hpos : 0 < (agg.map GroupRow.value).sum) :
    (((sortByB holdingDescLe (agg.map (annotatePct ((agg.map GroupRow.value).sum)))).take
        topN).map HoldingRow.portfolioPct).sum = 100
    ∧ ∀ r ∈ (sortByB holdingDescLe (agg.map (annotatePct ((agg.map GroupRow.value).sum)))).take
        topN,
        r.portfolioPct = ((r.value : ℚ) /
          ((((sortByB holdingDescLe (agg.map
              (annotatePct ((agg.map GroupRow.value).sum)))).take topN).map
            HoldingRow.value).sum : ℚ)) * 100 := by
  set tot := (agg.map GroupRow.value).sum with htot
  set wp := agg.map (annotatePct tot) with hwp
  have hlen : (sortByB holdingDescLe wp).length = agg.length := by
    rw [(sortByB_perm holdingDescLe wp).length_eq, hwp, List.length_map]
  have htake : (sortByB holdingDescLe wp).take topN = sortByB holdingDescLe wp :=
    List.take_of_length_le (by rw [hlen]; exact hN)
  rw [htake]
  have hperm : (sortByB holdingDescLe wp).Perm wp := sortByB_perm holdingDescLe wp
  have hQne : ((tot : Int) : ℚ) ≠ 0 := Int.cast_ne_zero.mpr (ne_of_gt hpos)
  have hvals : ((sortByB holdingDescLe wp).map HoldingRow.value).sum = tot := by
    rw [(hperm.map HoldingRow.value).sum_eq, hwp, List.map_map]
    rfl
  have hpcts : ((sortByB holdingDescLe wp).map HoldingRow.portfolioPct).sum = 100 := by
    rw [(hperm.map HoldingRow.portfolioPct).sum_eq, hwp, List.map_map]
    have hfun : (HoldingRow.portfolioPct ∘ annotatePct tot) =
        fun g : GroupRow => (g.value : ℚ) * (100 / ((tot : Int) : ℚ)) := by
      funext g
      show ((g.value : ℚ) / ((tot : Int) : ℚ)) * 100 = _
      ring
    rw [hfun, List.sum_map_mul_right]
    have hcast : (List.map (fun g : GroupRow => ((g.value : Int) : ℚ)) agg).sum =
        ((tot : Int) : ℚ) := by
      rw [htot]
      have h2 := map_list_sum (Int.castRingHom ℚ) (agg.map GroupRow.value)
      simp only [Int.coe_castRingHom, List.map_map] at h2
      exact h2.symm
    rw [hcast, mul_comm]
    exact div_mul_cancel₀ 100 hQne
  refine ⟨hpcts, fun r hr => ?_⟩
  rw [hvals]
  have hrwp : r ∈ wp := (hperm.mem_iff).mp hr
  rw [hwp] at hrwp
  obtain ⟨g, hg, rfl⟩ := List.mem_map.mp hrwp
  rfl

/-- C4: whenever the requested top-N covers every (issuer, class) group of
the matched positions and the summed group total is positive, the
portfolio-percentage column of get_fund_holdings sums to exactly 100 and
each row percentage is that row value over the sum of the returned rows
values times 100 — the denominator being the summed group total, not any
declared filing total. -/
theorem C4_holdings_percentages (e : Engine) (q : String) (topN : Nat)
    (hN : (groupPositions (matchedHoldings e q)).length ≤ topN)
    (hpos : 0 < ((groupPositions (matchedHoldings e q)).map GroupRow.value).sum) :
    (((getFundHoldings e q topN).map HoldingRow.portfolioPct).sum = 100)
    ∧ ∀ r ∈ getFundHoldings e q topN,
        r.portfolioPct = ((r.value : ℚ) /
          (((getFundHoldings e q topN).map HoldingRow.value).sum : ℚ)) * 100 := by
  have hne : matchedHoldings e q ≠ [] := by
    intro h
    rw [h, groupPositions_nil] at hpos
    simp at hpos
  rw [getFundHoldings_eq e q topN hne]
  exact pct_core (groupPositions (matchedHoldings e q)) topN hN hpos

/-- C4 witness: a two-group fund whose percentages are 60 and 40, summing to
exactly 100, checked through the theorem. -/
theorem C4_holdings_percentages_witness :
    (groupPositions (matchedHoldings
        ⟨[⟨"A1", some "Alpha Fund"⟩],
         [⟨"A1", "AAA CO", "COM", 60, 6, "c1", ""⟩,
          ⟨"A1", "BBB CO", "COM", 40, 4, "c2", ""⟩]⟩ "alpha")).length ≤ 5
    ∧ 0 < ((groupPositions (matchedHoldings
        ⟨[⟨"A1", some "Alpha Fund"⟩],
         [⟨"A1", "AAA CO", "COM", 60, 6, "c1", ""⟩,
          ⟨"A1", "BBB CO", "COM", 40, 4, "c2", ""⟩]⟩ "alpha")).map GroupRow.value).sum
    ∧ (((getFundHoldings
        ⟨[⟨"A1", some "Alpha Fund"⟩],
         [⟨"A1", "AAA CO", "COM", 60, 6, "c1", ""⟩,
          ⟨"A1", "BBB CO", "COM", 40, 4, "c2", ""⟩]⟩ "alpha" 5).map
        HoldingRow.portfolioPct).sum = 100) := by
  refine ⟨by decide, by decide, ?_⟩
  exact (C4_holdings_percentages
    ⟨[⟨"A1", some "Alpha Fund"⟩],
     [⟨"A1", "AAA CO", "COM", 60, 6, "c1", ""⟩,
      ⟨"A1", "BBB CO", "COM", 40, 4, "c2", ""⟩]⟩ "alpha" 5 (by decide) (by decide)).1

/-! ## C7 support: statistics shape -/

theorem distinctL_ne_nil [DecidableEq α] (x : α) (xs : List α) : distinctL (x :: xs) ≠ [] := by
  unfold distinctL
  rw [List.foldl_cons]
  simp only [List.not_mem_nil, if_false, List.nil_append]
  refine foldl_preserves_mem _ (fun acc : List α => acc ≠ []) xs
    (fun acc y _ hacc => ?_) [x] (by simp)
  by_cases h : y ∈ acc
  · simpa [h] using hacc
  · simp [h]

theorem groupPositions_ne_nil (rows : List InfoRow) (h : rows ≠ []) :
    groupPositions rows ≠ [] := by
  cases rows with
  | nil => exact absurd rfl h
  | cons r rs =>
      unfold groupPositions
      intro hcontra
      rw [List.map_eq_nil_iff] at hcontra
      have hperm := sortByB_perm pairLeB
        (distinctL ((r :: rs).map (fun r2 => (r2.nameOfIssuer, r2.titleOfClass))))
      rw [hcontra] at hperm
      have h2 := hperm.symm.eq_nil
      rw [List.map_cons] at h2
      exact distinctL_ne_nil _ _ h2

/-- get_fund_holdings with a positive top-N is empty exactly when no
position matched the query. -/
theorem getFundHoldings_nil_iff (e : Engine) (q : String) (topN : Nat) (htop : 0 < topN) :
    (getFundHoldings e q topN = [] ↔ matchedHoldings e q = []) := by
  constructor
  · intro h
    by_contra hne
    rw [getFundHoldings_eq e q topN hne, List.take_eq_nil_iff] at h
    rcases h with h | h
    · omega
    · have hperm := sortByB_perm holdingDescLe ((groupPositions (matchedHoldings e q)).map
        (annotatePct (((groupPositions (matchedHoldings e q)).map GroupRow.value).sum)))
      rw [h] at hperm
      have h2 := hperm.symm.eq_nil
      rw [List.map_eq_nil_iff] at h2
      exact groupPositions_ne_nil _ hne h2
  · intro h
    simp [getFundHoldings, h]

/-- C7: get_fund_statistics returns the not-found error result exactly when
no position matched the fund-name query, and otherwise returns the
statistics object with total value, position count, unique-security count,
top holding name/value/percentage, mean and median position size. -/
theorem C7_statistics_shape (e : Engine) (q : String) :
    ((∃ msg, getFundStatistics e q = FundStatsResult.notFound msg) ↔ matchedHoldings e q = [])
    ∧ (∀ top rest, getFundHoldings e q 1000 = top :: rest →
        getFundStatistics e q = FundStatsResult.stats
          { totalPortfolioValue := ((top :: rest).map HoldingRow.value).sum
            totalPositions := (top :: rest).length
            uniqueSecurities := (distinctL ((top :: rest).map HoldingRow.issuer)).length
            topHolding := top.issuer
            topHoldingValue := top.value
            topHoldingPct := top.portfolioPct
            avgPositionSize := (((top :: rest).map HoldingRow.value).sum : ℚ) /
              (((top :: rest).length : Nat) : ℚ)
            medianPositionSize := medianQ ((top :: rest).map (fun r => (r.value : ℚ))) }) := by
  constructor
  · constructor
    · rintro ⟨msg, hmsg⟩
      by_contra hne
      cases hh : getFundHoldings e q 1000 with
      | nil => exact hne ((getFundHoldings_nil_iff e q 1000 (by norm_num)).mp hh)
      | cons top rest => simp [getFundStatistics, hh] at hmsg
    · intro h
      have h2 : getFundHoldings e q 1000 = [] :=
        (getFundHoldings_nil_iff e q 1000 (by norm_num)).mpr h
      exact ⟨"Fund \"" ++ q ++ "\" not found", by simp [getFundStatistics, h2]⟩
  · intro top rest hh
    simp [getFundStatistics, hh]

/-- C7 witness: a nonexistent fund name has no matching positions and, by
the theorem, yields the not-found result; the same engine has matching
positions for the real fund name, so by the theorem it does not yield the
not-found result there. -/
theorem C7_statistics_shape_witness :
    (matchedHoldings ⟨[⟨"A1", some "Alpha Fund"⟩], [⟨"A1", "AAA", "COM", 50, 5, "c", ""⟩]⟩
        "zzz" = []
      ∧ ∃ msg, getFundStatistics ⟨[⟨"A1", some "Alpha Fund"⟩],
          [⟨"A1", "AAA", "COM", 50, 5, "c", ""⟩]⟩ "zzz" = FundStatsResult.notFound msg)
    ∧ (matchedHoldings ⟨[⟨"A1", some "Alpha Fund"⟩], [⟨"A1", "AAA", "COM", 50, 5, "c", ""⟩]⟩
        "alpha" ≠ []
      ∧ ¬∃ msg, getFundStatistics ⟨[⟨"A1", some "Alpha Fund"⟩],
          [⟨"A1", "AAA", "COM", 50, 5, "c", ""⟩]⟩ "alpha" = FundStatsResult.notFound msg) := by
  refine ⟨⟨by decide, (C7_statistics_shape _ "zzz").1.mpr (by decide)⟩, by decide, ?_⟩
  intro hmsg
  have h := (C7_statistics_shape
    ⟨[⟨"A1", some "Alpha Fund"⟩], [⟨"A1", "AAA", "COM", 50, 5, "c", ""⟩]⟩ "alpha").1.mp hmsg
  exact absurd h (by decide)

/-! ## Dictionary lemmas -/

theorem lookupDict_insertDict_self [DecidableEq κ] (m : List (κ × β)) (k : κ) (v : β) :
    lookupDict (insertDict m k v) k = some v := by
  induction m with
  | nil => simp [insertDict, lookupDict]
  | cons p rest ih =>
      obtain ⟨k2, v2⟩ := p
      by_cases h : k2 = k
      · simp [insertDict, lookupDict, h]
      · simp [insertDict, lookupDict, h, ih]

theorem lookupDict_insertDict_ne [DecidableEq κ] (m : List (κ × β)) (k u : κ) (v : β)
    (h : k ≠ u) : lookupDict (insertDict m k v) u = lookupDict m u := by
  induction m with
  | nil => simp [insertDict, lookupDict, h]
  | cons p rest ih =>
      obtain ⟨k2, v2⟩ := p
      by_cases h2 : k2 = k
      · subst h2
        simp [insertDict, lookupDict, h]
      · simp [insertDict, lookupDict, h2, ih]

/-- Folding per-element inserts over keys not equal to u leaves the binding
of u unchanged. -/
theorem lookupDict_foldl_insert_not_mem [DecidableEq κ] (f : κ → β)
    (ts : List κ) (acc : List (κ × β)) (u : κ) (hu : u ∉ ts) :
    lookupDict (ts.foldl (fun res t => insertDict res t (f t)) acc) u = lookupDict acc u := by
  induction ts generalizing acc with
  | nil => rfl
  | cons t rest ih =>
      have hne : t ≠ u := fun h => hu (h ▸ List.mem_cons_self t rest)
      have hrest : u ∉ rest := fun h => hu (List.mem_cons_of_mem t h)
      simp only [List.foldl_cons]
      rw [ih _ hrest, lookupDict_insertDict_ne _ _ _ _ hne]

/-- Folding per-element inserts gives every listed key its own computed
value. -/
theorem lookupDict_foldl_insert_mem [DecidableEq κ] (f : κ → β)
    (ts : List κ) (acc : List (κ × β)) (u : κ) (hu : u ∈ ts) :
    lookupDict (ts.foldl (fun res t => insertDict res t (f t)) acc) u = some (f u) := by
  induction ts generalizing acc with
  | nil => cases hu
  | cons t rest ih =>
      simp only [List.foldl_cons]
      by_cases hr : u ∈ rest
      · exact ih _ hr
      · have : u = t := by
          rcases List.mem_cons.mp hu with h | h
          · exact h
          · exact absurd h hr
        subst this
        rw [lookupDict_foldl_insert_not_mem _ _ _ _ hr, lookupDict_insertDict_self]

/-- Replacing the first matching row keeps it first-matching when the
replacement still matches. -/
theorem find?_updateFirst (p : FileRow → Bool) (f : FileRow → FileRow)
    (l : List FileRow) (r : FileRow) (hf : l.find? p = some r)
    (hp : ∀ x, p x = true → p (f x) = true) :
    (updateFirst p f l).find? p = some (f r) := by
  induction l with
  | nil => simp [List.find?] at hf
  | cons a rest ih =>
      by_cases h : p a = true
      · rw [List.find?_cons_of_pos _ h] at hf
        injection hf with h2
        subst h2
        simp only [updateFirst, h, if_true]
        exact List.find?_cons_of_pos _ (hp a h)
      · rw [List.find?_cons_of_neg _ h] at hf
        have hb : p a = false := by simpa using h
        simp only [updateFirst, hb, Bool.false_eq_true, if_false]
        rw [List.find?_cons_of_neg _ h]
        exact ih hf

/-! ## C1: cache overwrite policy -/

/-- The in-memory read of the cache after any add_mapping call returns the
values just written. -/
theorem get_info_add_mapping (file : List FileRow) (mem : List (String × CacheEntry))
    (companyName ticker sector source today : String) :
    get_info (add_mapping file mem companyName ticker sector source today).2 companyName =
      some ⟨ticker, sector, source, today⟩ := by
  simp [get_info, add_mapping, lookupDict_insertDict_self]

/-- C1, counterexample: with "ACME CORP" cached as sector "Technology" from
the "manual" source, a second write of sector "Finance" with the lowest-trust
"auto" source leaves the persisted table unchanged, yet a subsequent read
(get_sector) returns the new "Finance", not the original entry — refuting
the claim that the read returns the original entry. -/
theorem C1_counterexample :
    (add_mapping [⟨"ACME CORP", "ACM", "Technology", "manual", "2024-01-01"⟩]
        (load_mapping [⟨"ACME CORP", "ACM", "Technology", "manual", "2024-01-01"⟩])
        "ACME CORP" "XXX" "Finance" "auto" "2024-02-02").1 =
      [⟨"ACME CORP", "ACM", "Technology", "manual", "2024-01-01"⟩]
    ∧ get_sector
        (add_mapping [⟨"ACME CORP", "ACM", "Technology", "manual", "2024-01-01"⟩]
          (load_mapping [⟨"ACME CORP", "ACM", "Technology", "manual", "2024-01-01"⟩])
          "ACME CORP" "XXX" "Finance" "auto" "2024-02-02").2 "ACME CORP" = some "Finance"
    ∧ some "Finance" ≠ some "Technology" := by
  refine ⟨by decide, by decide, by decide⟩

/-- C1, amended: the persisted entry is only replaced under the overwrite
policy (existing sector is the "Unknown" sentinel and the new one is not, or
the existing source is "auto" and the new one is a higher-trust tag), and a
rejected write leaves the persisted rows and any reload of them exactly as
they were; but the in-memory entry is unconditionally replaced, so a
subsequent in-memory read returns the newly written sector, not the original
entry. -/
theorem C1_amended_policy (file : List FileRow) (mem : List (String × CacheEntry))
    (companyName ticker sector source today : String) (r : FileRow)
    (hfind : file.find? (rowMatches (pyNormName companyName)) = some r) :
    (shouldUpdateB r.sector r.source sector source = false →
        (add_mapping file mem companyName ticker sector source today).1 = file
        ∧ load_mapping (add_mapping file mem companyName ticker sector source today).1 =
            load_mapping file)
    ∧ (shouldUpdateB r.sector r.source sector source = true →
        ((add_mapping file mem companyName ticker sector source today).1.find?
            (rowMatches (pyNormName companyName))) =
          some { r with ticker := ticker, sector := sector, source := source, lastUpdated := today })
    ∧ get_sector (add_mapping file mem companyName ticker sector source today).2 companyName =
        some sector := by
  refine ⟨fun hkeep => ?_, fun hupd => ?_, ?_⟩
  · constructor
    · simp [add_mapping, hfind, hkeep]
    · simp [add_mapping, hfind, hkeep]
  · simp only [add_mapping, hfind, hupd, if_true]
    exact find?_updateFirst _ _ _ _ hfind (fun x hx => hx)
  · simp [get_sector, add_mapping, lookupDict_insertDict_self]

/-- C1 witness: the amended theorem applied to the concrete rejected write of
the counterexample state. -/
theorem C1_amended_policy_witness :
    ([⟨"ACME CORP", "ACM", "Technology", "manual", "2024-01-01"⟩] :
        List FileRow).find? (rowMatches (pyNormName "ACME CORP")) =
      some ⟨"ACME CORP", "ACM", "Technology", "manual", "2024-01-01"⟩
    ∧ shouldUpdateB "Technology" "manual" "Finance" "auto" = false
    ∧ (add_mapping [⟨"ACME CORP", "ACM", "Technology", "manual", "2024-01-01"⟩] []
        "ACME CORP" "XXX" "Finance" "auto" "2024-02-02").1 =
      [⟨"ACME CORP", "ACM", "Technology", "manual", "2024-01-01"⟩] := by
  refine ⟨by decide, by decide, ?_⟩
  exact ((C1_amended_policy [⟨"ACME CORP", "ACM", "Technology", "manual", "2024-01-01"⟩] []
    "ACME CORP" "XXX" "Finance" "auto" "2024-02-02"
    ⟨"ACME CORP", "ACM", "Technology", "manual", "2024-01-01"⟩ (by decide)).1 (by decide)).1

/-! ## C10: unconditional in-memory overwrite -/

/-- C10: every add_mapping call replaces the in-memory entry for the
normalised company name with exactly the ticker, sector and source just
passed in, even when the overwrite policy keeps the persisted row — so after
a rejected write the in-memory reads return the new values while the
persisted table, and hence a reload of it, still holds the old entry. -/
theorem C10_memory_overwrite (file : List FileRow) (mem : List (String × CacheEntry))
    (companyName ticker sector source today : String) :
    get_ticker (add_mapping file mem companyName ticker sector source today).2 companyName =
      some ticker
    ∧ get_sector (add_mapping file mem companyName ticker sector source today).2 companyName =
        some sector
    ∧ get_info (add_mapping file mem companyName ticker sector source today).2 companyName =
        some ⟨ticker, sector, source, today⟩
    ∧ (∀ r, file.find? (rowMatches (pyNormName companyName)) = some r →
        shouldUpdateB r.sector r.source sector source = false →
        (add_mapping file mem companyName ticker sector source today).1 = file) := by
  refine ⟨?_, ?_, ?_, fun r hfind hkeep => ?_⟩
  · simp [get_ticker, add_mapping, lookupDict_insertDict_self]
  · simp [get_sector, add_mapping, lookupDict_insertDict_self]
  · simp [get_info, add_mapping, lookupDict_insertDict_self]
  · simp [add_mapping, hfind, hkeep]

/-- C10 witness: the rejected-write scenario evaluated concretely through the
theorem. -/
theorem C10_memory_overwrite_witness :
    get_sector (add_mapping [⟨"ACME CORP", "ACM", "Technology", "manual", "2024-01-01"⟩]
        (load_mapping [⟨"ACME CORP", "ACM", "Technology", "manual", "2024-01-01"⟩])
        "ACME CORP" "BBB" "Finance" "auto" "2024-03-03").2 "ACME CORP" = some "Finance"
    ∧ (add_mapping [⟨"ACME CORP", "ACM", "Technology", "manual", "2024-01-01"⟩]
        (load_mapping [⟨"ACME CORP", "ACM", "Technology", "manual", "2024-01-01"⟩])
        "ACME CORP" "BBB" "Finance" "auto" "2024-03-03").1 =
      [⟨"ACME CORP", "ACM", "Technology", "manual", "2024-01-01"⟩] := by
  refine ⟨(C10_memory_overwrite _ _ _ _ _ _ _).2.1, ?_⟩
  exact (C10_memory_overwrite [⟨"ACME CORP", "ACM", "Technology", "manual", "2024-01-01"⟩]
    (load_mapping [⟨"ACME CORP", "ACM", "Technology", "manual", "2024-01-01"⟩])
    "ACME CORP" "BBB" "Finance" "auto" "2024-03-03").2.2.2
    ⟨"ACME CORP", "ACM", "Technology", "manual", "2024-01-01"⟩ (by decide) (by decide)

/-! ## Search scan lemmas -/

theorem foldl_addIfNew_mem (nameOf : β → String) (l : List β) (x : β) :
    ∀ acc, x ∈ (l.foldl (addIfNew nameOf) acc).1 → x ∈ acc.1 ∨ x ∈ l := by
  induction l with
  | nil => exact fun acc hx => Or.inl hx
  | cons y ys ih =>
      intro acc hx
      rcases ih (addIfNew nameOf acc y) hx with h | h
      · by_cases hseen : nameOf y ∈ acc.2
        · simp only [addIfNew, hseen, if_true] at h
          exact Or.inl h
        · simp only [addIfNew, hseen, if_false] at h
          rcases List.mem_append.mp h with h2 | h2
          · exact Or.inl h2
          · simp at h2
            subst h2
            exact Or.inr (List.mem_cons_self _ _)
      · exact Or.inr (List.mem_cons_of_mem _ h)

theorem foldl_addIfNew_prefix (nameOf : β → String) (l : List β) :
    ∀ acc, ∃ t, (l.foldl (addIfNew nameOf) acc).1 = acc.1 ++ t := by
  induction l with
  | nil => exact fun acc => ⟨[], by simp⟩
  | cons y ys ih =>
      intro acc
      rw [List.foldl_cons]
      obtain ⟨t, ht⟩ := ih (addIfNew nameOf acc y)
      by_cases hseen : nameOf y ∈ acc.2
      · refine ⟨t, ?_⟩
        rw [ht]
        simp [addIfNew, hseen]
      · refine ⟨[y] ++ t, ?_⟩
        rw [ht]
        simp [addIfNew, hseen]

theorem foldl_addIfNew_snd (nameOf : β → String) (l : List β) (acc : List β × List String)
    (h : acc.2 = acc.1.map nameOf) :
    (l.foldl (addIfNew nameOf) acc).2 = (l.foldl (addIfNew nameOf) acc).1.map nameOf := by
  refine foldl_preserves_mem _ (fun c => c.2 = c.1.map nameOf) l (fun c y _ hc => ?_) acc h
  by_cases hseen : nameOf y ∈ c.2
  · simp only [addIfNew, if_pos hseen]
    exact hc
  · simp only [addIfNew, if_neg hseen]
    simp [hc]

theorem scanBucket_mem (nameOf : β → String) (limit : Nat) (xs : List β) (x : β) :
    ∀ acc, x ∈ (scanBucket nameOf limit xs acc).1 → x ∈ acc.1 ∨ x ∈ xs := by
  induction xs with
  | nil => exact fun acc hx => Or.inl hx
  | cons y ys ih =>
      intro acc hx
      by_cases hseen : nameOf y ∈ acc.2
      · simp only [scanBucket, hseen, if_true] at hx
        rcases ih acc hx with h | h
        · exact Or.inl h
        · exact Or.inr (List.mem_cons_of_mem _ h)
      · simp only [scanBucket, hseen, if_false] at hx
        by_cases hl : limit ≤ acc.1.length + 1
        · rw [if_pos (by simpa using hl)] at hx
          rcases List.mem_append.mp hx with h2 | h2
          · exact Or.inl h2
          · simp at h2
            subst h2
            exact Or.inr (List.mem_cons_self _ _)
        · rw [if_neg (by simpa using hl)] at hx
          rcases ih _ hx with h | h
          · rcases List.mem_append.mp h with h2 | h2
            · exact Or.inl h2
            · simp at h2
              subst h2
              exact Or.inr (List.mem_cons_self _ _)
          · exact Or.inr (List.mem_cons_of_mem _ h)

theorem scanBucket_prefix (nameOf : β → String) (limit : Nat) (xs : List β) :
    ∀ acc, ∃ t, (scanBucket nameOf limit xs acc).1 = acc.1 ++ t := by
  induction xs with
  | nil => exact fun acc => ⟨[], by simp [scanBucket]⟩
  | cons y ys ih =>
      intro acc
      by_cases hseen : nameOf y ∈ acc.2
      · obtain ⟨t, ht⟩ := ih acc
        exact ⟨t, by simpa [scanBucket, hseen] using ht⟩
      · by_cases hl : limit ≤ acc.1.length + 1
        · refine ⟨[y], ?_⟩
          simp only [scanBucket, hseen, if_false]
          rw [if_pos (by simpa using hl)]
        · obtain ⟨t, ht⟩ := ih (acc.1 ++ [y], acc.2 ++ [nameOf y])
          refine ⟨[y] ++ t, ?_⟩
          simp only [scanBucket, hseen, if_false]
          rw [if_neg (by simpa using hl), ht, List.append_assoc]

theorem scanKeys_mem (nameOf : β → String) (q : String) (limit : Nat) (x : β)
    (lk : List (String × List β)) :
    ∀ acc, x ∈ (scanKeys nameOf q limit lk acc).1 →
      x ∈ acc.1 ∨ ∃ k b, (k, b) ∈ lk ∧ x ∈ b := by
  induction lk with
  | nil => exact fun acc hx => Or.inl hx
  | cons p rest ih =>
      obtain ⟨k, b⟩ := p
      intro acc hx
      simp only [scanKeys] at hx
      rcases ih _ hx with h | ⟨k2, b2, hk2, hx2⟩
      · split at h
        · rcases scanBucket_mem nameOf limit b x acc h with h2 | h2
          · exact Or.inl h2
          · exact Or.inr ⟨k, b, List.mem_cons_self _ _, h2⟩
        · exact Or.inl h
      · exact Or.inr ⟨k2, b2, List.mem_cons_of_mem _ hk2, hx2⟩

theorem scanKeys_prefix (nameOf : β → String) (q : String) (limit : Nat)
    (lk : List (String × List β)) :
    ∀ acc, ∃ t, (scanKeys nameOf q limit lk acc).1 = acc.1 ++ t := by
  induction lk with
  | nil => exact fun acc => ⟨[], by simp [scanKeys]⟩
  | cons p rest ih =>
      obtain ⟨k, b⟩ := p
      intro acc
      simp only [scanKeys]
      split
      · obtain ⟨t1, ht1⟩ := scanBucket_prefix nameOf limit b acc
        obtain ⟨t2, ht2⟩ := ih (scanBucket nameOf limit b acc)
        refine ⟨t1 ++ t2, ?_⟩
        rw [ht2, ht1, List.append_assoc]
      · exact ih acc

/-- Every search result comes from some bucket of the index. -/
theorem mem_searchIndex (nameOf : β → String) (lk : List (String × List β))
    (q : String) (limit : Nat) (x : β) (hx : x ∈ searchIndex nameOf lk q limit) :
    ∃ k b, (k, b) ∈ lk ∧ x ∈ b := by
  simp only [searchIndex] at hx
  have hx2 := List.mem_of_mem_take hx
  rcases scanKeys_mem nameOf _ limit x lk _ hx2 with h | h
  · rcases foldl_addIfNew_mem nameOf _ x ([], []) h with h2 | h2
    · cases h2
    · cases hl : lookupDict lk (pyStrip (pyLower q)) with
      | none => rw [hl] at h2; cases h2
      | some b =>
          rw [hl] at h2
          exact ⟨pyStrip (pyLower q), b, lookupDict_mem _ _ _ hl, h2⟩
  · exact h

theorem scanKeys_no_match (nameOf : β → String) (q : String) (limit : Nat)
    (lk : List (String × List β)) (h : ∀ p ∈ lk, pyContains p.1 q = false) :
    ∀ acc, scanKeys nameOf q limit lk acc = acc := by
  induction lk with
  | nil => exact fun acc => rfl
  | cons p rest ih =>
      obtain ⟨k, b⟩ := p
      intro acc
      have hk : pyContains k q = false := h (k, b) (List.mem_cons_self _ _)
      simp only [scanKeys, hk, Bool.false_and, Bool.false_eq_true, if_false]
      exact ih (fun p2 hp2 => h p2 (List.mem_cons_of_mem _ hp2)) acc

/-- A query contained in no index key returns the empty result. -/
theorem searchIndex_nil_of_no_key (nameOf : β → String) (lk : List (String × List β))
    (q : String) (limit : Nat)
    (h : ∀ p ∈ lk, pyContains p.1 (pyStrip (pyLower q)) = false) :
    searchIndex nameOf lk q limit = [] := by
  have hdir : lookupDict lk (pyStrip (pyLower q)) = none := by
    cases hl : lookupDict lk (pyStrip (pyLower q)) with
    | none => rfl
    | some b =>
        exfalso
        have hmem := lookupDict_mem _ _ _ hl
        have := h _ hmem
        rw [pyContains, hasSubstr_self] at this
        cases this
  simp only [searchIndex, hdir, Option.getD_none, List.foldl_nil]
  rw [scanKeys_no_match nameOf _ limit lk h ([], [])]
  exact List.take_nil

theorem searchIndex_length_le (nameOf : β → String) (lk : List (String × List β))
    (q : String) (limit : Nat) : (searchIndex nameOf lk q limit).length ≤ limit := by
  simp only [searchIndex]
  exact List.length_take_le _ _

/-! ## Index construction invariants -/

theorem bucketAppend_buckets (lk : List (String × List β)) (k : String) (e : β)
    (h : ∀ p ∈ lk, p.2 ≠ []) : ∀ p ∈ bucketAppend lk k e, p.2 ≠ [] := by
  induction lk with
  | nil =>
      intro p hp
      simp only [bucketAppend, List.mem_singleton] at hp
      subst hp
      simp
  | cons p2 rest ih =>
      obtain ⟨k2, b⟩ := p2
      intro p hp
      by_cases hk : k2 = k
      · simp only [bucketAppend, if_pos hk] at hp
        rcases List.mem_cons.mp hp with h2 | h2
        · subst h2; simp
        · exact h _ (List.mem_cons_of_mem _ h2)
      · simp only [bucketAppend, if_neg hk] at hp
        rcases List.mem_cons.mp hp with h2 | h2
        · subst h2; exact h _ (List.mem_cons_self _ _)
        · exact ih (fun p3 hp3 => h p3 (List.mem_cons_of_mem _ hp3)) p h2

theorem bucketAppendNew_buckets (nameOf : β → String) (lk : List (String × List β))
    (k : String) (e : β) (h : ∀ p ∈ lk, p.2 ≠ []) :
    ∀ p ∈ bucketAppendNew nameOf lk k e, p.2 ≠ [] := by
  induction lk with
  | nil =>
      intro p hp
      simp only [bucketAppendNew, List.mem_singleton] at hp
      subst hp
      simp
  | cons p2 rest ih =>
      obtain ⟨k2, b⟩ := p2
      intro p hp
      by_cases hk : k2 = k
      · simp only [bucketAppendNew, if_pos hk] at hp
        split at hp
        · rcases List.mem_cons.mp hp with h2 | h2
          · subst h2; exact h _ (List.mem_cons_self _ _)
          · exact h _ (List.mem_cons_of_mem _ h2)
        · rcases List.mem_cons.mp hp with h2 | h2
          · subst h2; simp
          · exact h _ (List.mem_cons_of_mem _ h2)
      · simp only [bucketAppendNew, if_neg hk] at hp
        rcases List.mem_cons.mp hp with h2 | h2
        · subst h2; exact h _ (List.mem_cons_self _ _)
        · exact ih (fun p3 hp3 => h p3 (List.mem_cons_of_mem _ hp3)) p h2

theorem mem_bucketAppend (lk : List (String × List β)) (k : String) (e x : β) :
    ∀ p ∈ bucketAppend lk k e, x ∈ p.2 → (∃ p2 ∈ lk, x ∈ p2.2) ∨ x = e := by
  induction lk with
  | nil =>
      intro p hp hx
      simp only [bucketAppend, List.mem_singleton] at hp
      subst hp
      simp only [List.mem_singleton] at hx
      exact Or.inr hx
  | cons p2 rest ih =>
      obtain ⟨k2, b⟩ := p2
      intro p hp hx
      by_cases hk : k2 = k
      · simp only [bucketAppend, if_pos hk] at hp
        rcases List.mem_cons.mp hp with h2 | h2
        · subst h2
          rcases List.mem_append.mp hx with h3 | h3
          · exact Or.inl ⟨(k2, b), List.mem_cons_self _ _, h3⟩
          · simp only [List.mem_singleton] at h3
            exact Or.inr h3
        · exact Or.inl ⟨p, List.mem_cons_of_mem _ h2, hx⟩
      · simp only [bucketAppend, if_neg hk] at hp
        rcases List.mem_cons.mp hp with h2 | h2
        · subst h2
          exact Or.inl ⟨(k2, b), List.mem_cons_self _ _, hx⟩
        · rcases ih p h2 hx with ⟨p3, hp3, hx3⟩ | h3
          · exact Or.inl ⟨p3, List.mem_cons_of_mem _ hp3, hx3⟩
          · exact Or.inr h3

theorem keys_bucketAppendNew (nameOf : β → String) (lk : List (String × List β))
    (k : String) (e : β) :
    ∀ p ∈ bucketAppendNew nameOf lk k e, p.1 = k ∨ ∃ p2 ∈ lk, p.1 = p2.1 := by
  induction lk with
  | nil =>
      intro p hp
      simp only [bucketAppendNew, List.mem_singleton] at hp
      subst hp
      exact Or.inl rfl
  | cons p2 rest ih =>
      obtain ⟨k2, b⟩ := p2
      intro p hp
      by_cases hk : k2 = k
      · simp only [bucketAppendNew, if_pos hk] at hp
        split at hp <;>
          rcases List.mem_cons.mp hp with h2 | h2
        · subst h2; exact Or.inl hk
        · exact Or.inr ⟨p, List.mem_cons_of_mem _ h2, rfl⟩
        · subst h2; exact Or.inl hk
        · exact Or.inr ⟨p, List.mem_cons_of_mem _ h2, rfl⟩
      · simp only [bucketAppendNew, if_neg hk] at hp
        rcases List.mem_cons.mp hp with h2 | h2
        · subst h2
          exact Or.inr ⟨(k2, b), List.mem_cons_self _ _, rfl⟩
        · rcases ih p h2 with h3 | ⟨p3, hp3, h3⟩
          · exact Or.inl h3
          · exact Or.inr ⟨p3, List.mem_cons_of_mem _ hp3, h3⟩

/-- Every bucket of the fund index is non-empty. -/
theorem buildFundLookup_buckets (rows : List CoverRow) :
    ∀ p ∈ buildFundLookup rows, p.2 ≠ [] := by
  unfold buildFundLookup
  refine foldl_preserves_mem _
    (fun lk : List (String × List FundRef) => ∀ p ∈ lk, p.2 ≠ []) rows
    (fun lk row _ hlk => ?_) [] (fun p hp => by cases hp)
  dsimp only
  split
  · exact hlk
  · split
    · exact hlk
    · exact foldl_preserves_mem _
        (fun lk2 : List (String × List FundRef) => ∀ p ∈ lk2, p.2 ≠ []) _
        (fun lk2 k _ h2 => bucketAppend_buckets lk2 k _ h2) lk hlk

/-- Every bucket of the ticker index is non-empty. -/
theorem buildTickerLookup_buckets (rows : List InfoRow) :
    ∀ p ∈ buildTickerLookup rows, p.2 ≠ [] := by
  unfold buildTickerLookup
  refine foldl_preserves_mem _
    (fun lk : List (String × List SecRef) => ∀ p ∈ lk, p.2 ≠ []) (rows.take 100000)
    (fun lk row _ hlk => ?_) [] (fun p hp => by cases hp)
  exact foldl_preserves_mem _
    (fun lk2 : List (String × List SecRef) => ∀ p ∈ lk2, p.2 ≠ []) _
    (fun lk2 k _ h2 => bucketAppendNew_buckets SecRef.name lk2 k _ h2) lk hlk

/-- Every fund entry stored in the index carries a stripped, non-blank
display name. -/
theorem buildFundLookup_entries (rows : List CoverRow) :
    ∀ p ∈ buildFundLookup rows, ∀ f ∈ p.2, pyStrip f.name = f.name ∧ f.name ≠ "" := by
  unfold buildFundLookup
  refine foldl_preserves_mem _
    (fun lk : List (String × List FundRef) =>
      ∀ p ∈ lk, ∀ f ∈ p.2, pyStrip f.name = f.name ∧ f.name ≠ "") rows
    (fun lk row _ hlk => ?_) [] (fun p hp => by cases hp)
  dsimp only
  split
  · exact hlk
  · rename_i raw heq
    split
    · exact hlk
    · rename_i hraw
      refine foldl_preserves_mem _
        (fun lk2 : List (String × List FundRef) =>
          ∀ p ∈ lk2, ∀ f ∈ p.2, pyStrip f.name = f.name ∧ f.name ≠ "") _
        (fun lk2 k _ h2 => ?_) lk hlk
      intro p hp f hf
      rcases mem_bucketAppend lk2 k ⟨pyStrip raw, row.accession⟩ f p hp hf with
        ⟨p2, hp2, hf2⟩ | rfl
      · exact h2 p2 hp2 f hf2
      · exact ⟨pyStrip_idem raw, hraw⟩

/-- Every key of the ticker index stems from one of the first 100000
position rows. -/
theorem buildTickerLookup_keys (rows : List InfoRow) :
    ∀ p ∈ buildTickerLookup rows, ∃ row ∈ rows.take 100000, p.1 ∈ secKeys row.nameOfIssuer := by
  unfold buildTickerLookup
  refine foldl_preserves_mem _
    (fun lk : List (String × List SecRef) =>
      ∀ p ∈ lk, ∃ row ∈ rows.take 100000, p.1 ∈ secKeys row.nameOfIssuer)
    (rows.take 100000) (fun lk row hrow hlk => ?_) [] (fun p hp => by cases hp)
  refine foldl_preserves_mem _
    (fun lk2 : List (String × List SecRef) =>
      ∀ p ∈ lk2, ∃ row ∈ rows.take 100000, p.1 ∈ secKeys row.nameOfIssuer)
    (secKeys row.nameOfIssuer) (fun lk2 k hk h2 => ?_) lk hlk
  intro p hp
  rcases keys_bucketAppendNew SecRef.name lk2 k _ p hp with hpk | ⟨p2, hp2, hpk⟩
  · exact ⟨row, hrow, hpk ▸ hk⟩
  · rcases h2 p2 hp2 with ⟨row2, hrow2, hk2⟩
    exact ⟨row2, hrow2, hpk ▸ hk2⟩

/-! ## Non-emptiness of the empty-query search -/

theorem scanBucket_ne_nil (nameOf : β → String) (limit : Nat) (xs : List β)
    (hxs : xs ≠ []) :
    (scanBucket nameOf limit xs (([] : List β), ([] : List String))).1 ≠ [] := by
  cases xs with
  | nil => exact absurd rfl hxs
  | cons x rest =>
      simp only [scanBucket, List.not_mem_nil, if_false]
      split
      · simp
      · obtain ⟨t, ht⟩ :=
          scanBucket_prefix nameOf limit rest (([] : List β) ++ [x], ([] : List String) ++ [nameOf x])
        rw [ht]
        simp

theorem scanKeys_ne_nil_of (nameOf : β → String) (k : String) (b : List β)
    (rest : List (String × List β)) (limit : Nat) (acc : List β × List String)
    (hacc : acc.1 = [] → acc = ([], [])) (hb : b ≠ []) (hlim : 0 < limit) :
    (scanKeys nameOf "" limit ((k, b) :: rest) acc).1 ≠ [] := by
  by_cases h0 : acc.1 = []
  · rcases hacc h0 with rfl
    simp only [scanKeys]
    intro hcontra
    split at hcontra
    · obtain ⟨t, ht⟩ := scanKeys_prefix nameOf "" limit rest
        (scanBucket nameOf limit b (([] : List β), ([] : List String)))
      rw [ht] at hcontra
      rcases List.append_eq_nil.mp hcontra with ⟨h1, _⟩
      exact scanBucket_ne_nil nameOf limit b hb h1
    · rename_i hcond
      apply hcond
      have h1 : pyContains k "" = true := hasSubstr_nil k.data
      rw [h1]
      simp [hlim]
  · obtain ⟨t, ht⟩ := scanKeys_prefix nameOf "" limit ((k, b) :: rest) acc
    intro hcontra
    rw [ht] at hcontra
    rcases List.append_eq_nil.mp hcontra with ⟨h1, _⟩
    exact h0 h1

theorem searchIndex_ne_nil (nameOf : β → String) (k : String) (b : List β)
    (rest : List (String × List β)) (q : String) (limit : Nat)
    (hq : pyStrip (pyLower q) = "") (hb : b ≠ []) (hlim : 0 < limit) :
    searchIndex nameOf ((k, b) :: rest) q limit ≠ [] := by
  simp only [searchIndex, hq]
  intro hres
  rw [List.take_eq_nil_iff] at hres
  rcases hres with h | h
  · omega
  · refine scanKeys_ne_nil_of nameOf k b rest limit _ (fun h0 => ?_) hb hlim h
    refine Prod.ext h0 ?_
    have hsnd := foldl_addIfNew_snd nameOf ((lookupDict ((k, b) :: rest) "").getD [])
      (([] : List β), ([] : List String)) rfl
    rw [h0] at hsnd
    simpa using hsnd

/-- With a query that normalises to the empty string, the search result is
empty exactly when the limit is zero or the index has no keys at all. -/
theorem searchIndex_empty_iff (nameOf : β → String) (lk : List (String × List β))
    (q : String) (limit : Nat) (hq : pyStrip (pyLower q) = "")
    (hbuckets : ∀ p ∈ lk, p.2 ≠ []) :
    (searchIndex nameOf lk q limit = [] ↔ limit = 0 ∨ lk = []) := by
  constructor
  · intro hres
    by_contra hcon
    push_neg at hcon
    obtain ⟨hlim, hlk⟩ := hcon
    cases lk with
    | nil => exact hlk rfl
    | cons p rest =>
        obtain ⟨k, b⟩ := p
        exact searchIndex_ne_nil nameOf k b rest q limit hq
          (hbuckets (k, b) (List.mem_cons_self _ _)) (Nat.pos_of_ne_zero hlim) hres
  · intro h
    rcases h with h | h
    · subst h
      simp only [searchIndex]
      exact List.take_zero _
    · subst h
      simp [searchIndex, lookupDict, scanKeys]

/-! ## C2: the empty-query behaviour in general -/

/-- C2, amended: an empty or whitespace-only query raises no error and is
still truncated to the limit, but since the empty string is contained in
every index key the substring tier matches every key: the result is empty
exactly when the limit is zero or the respective index is empty — on a
non-empty index with a positive limit the query returns entries rather than
the empty list. -/
theorem C2_amended_empty_query (e : Engine) (q : String) (limit : Nat)
    (hq : pyStrip (pyLower q) = "") :
    ((searchFunds e q limit).length ≤ limit
      ∧ (searchFunds e q limit = [] ↔ limit = 0 ∨ buildFundLookup e.cover = []))
    ∧ ((searchSecurities e q limit).length ≤ limit
      ∧ (searchSecurities e q limit = [] ↔ limit = 0 ∨ buildTickerLookup e.info = [])) := by
  refine ⟨⟨searchIndex_length_le _ _ _ _, ?_⟩, ⟨searchIndex_length_le _ _ _ _, ?_⟩⟩
  · exact searchIndex_empty_iff FundRef.name (buildFundLookup e.cover) q limit hq
      (buildFundLookup_buckets e.cover)
  · exact searchIndex_empty_iff SecRef.name (buildTickerLookup e.info) q limit hq
      (buildTickerLookup_buckets e.info)

/-- C2 witness: a whitespace-only query against a one-fund index returns a
non-empty result (the iff instantiated concretely). -/
theorem C2_amended_empty_query_witness :
    pyStrip (pyLower "  ") = ""
    ∧ (searchFunds ⟨[⟨"A1", some "Alpha Fund"⟩], []⟩ "  " 20 = [] ↔
        (20 : Nat) = 0 ∨ buildFundLookup [⟨"A1", some "Alpha Fund"⟩] = []) := by
  refine ⟨by decide, ?_⟩
  exact (C2_amended_empty_query ⟨[⟨"A1", some "Alpha Fund"⟩], []⟩ "  " 20 (by decide)).1.2

/-! ## C5: the bounded prefix sample -/

/-- C5: the security index is built only over the first 100000 position rows
(rebuilding from the truncated table gives the same index), and whenever the
normalised query is contained in no key generated from those sampled rows —
in particular when the only security it matches occurs beyond the cap —
searchSecurities returns the empty list. -/
theorem C5_sample_cap (e : Engine) (q : String) (limit : Nat)
    (h : ∀ row ∈ e.info.take 100000, ∀ k ∈ secKeys row.nameOfIssuer,
        pyContains k (pyStrip (pyLower q)) = false) :
    buildTickerLookup e.info = buildTickerLookup (e.info.take 100000)
    ∧ searchSecurities e q limit = [] := by
  constructor
  · simp [buildTickerLookup, List.take_take]
  · apply searchIndex_nil_of_no_key
    intro p hp
    obtain ⟨row, hrow, hk⟩ := buildTickerLookup_keys e.info p hp
    exact h row hrow p.1 hk

/-- The indexed row of the C5 witness table. -/
def capRowA : InfoRow := ⟨"A1", "APPLE INC", "COM", 1, 1, "c", ""⟩

/-- The row of the C5 witness table that lies beyond the 100000-row cap. -/
def capRowZ : InfoRow := ⟨"A2", "ZEBRA TECHNOLOGIES", "COM", 2, 2, "z", ""⟩

/-- 100000 indexed rows followed by one unreachable row. -/
def capTable : List InfoRow := List.replicate 100000 capRowA ++ [capRowZ]

/-- C5 witness: a position table of 100000 APPLE INC rows followed by one
ZEBRA TECHNOLOGIES row beyond the cap; the query "zebra" matches no sampled
key, so the search is empty although the table contains a matching row. -/
theorem C5_sample_cap_witness :
    (∀ row ∈ capTable.take 100000, ∀ k ∈ secKeys row.nameOfIssuer,
        pyContains k (pyStrip (pyLower "zebra")) = false)
    ∧ searchSecurities ⟨[], capTable⟩ "zebra" 20 = [] := by
  have htake : capTable.take 100000 = List.replicate 100000 capRowA := by
    unfold capTable
    exact List.take_left' (List.length_replicate _ _)
  have hrows : ∀ row ∈ capTable.take 100000, ∀ k ∈ secKeys row.nameOfIssuer,
      pyContains k (pyStrip (pyLower "zebra")) = false := by
    intro row hrow
    rw [htake] at hrow
    rw [List.eq_of_mem_replicate hrow]
    decide
  exact ⟨hrows, (C5_sample_cap ⟨[], capTable⟩ "zebra" 20 hrows).2⟩

/-! ## C8: fund search bounded and names non-blank -/

/-- C8: for a non-empty query, searchFunds returns at most limit results and
every returned display name is non-empty and non-blank (blank coverpage rows
are never indexed; stored names are stripped and non-empty).  Non-null is
structural: indexed names are plain strings, the null case is skipped before
indexing. -/
theorem C8_search_funds_bounds (e : Engine) (q : String) (limit : Nat)
    (hq : pyStrip (pyLower q) ≠ "") :
    (searchFunds e q limit).length ≤ limit
    ∧ ∀ f ∈ searchFunds e q limit, f.name ≠ "" ∧ pyStrip f.name ≠ "" := by
  refine ⟨searchIndex_length_le _ _ _ _, fun f hf => ?_⟩
  obtain ⟨k, b, hkb, hfb⟩ := mem_searchIndex _ _ _ _ f hf
  obtain ⟨hidem, hne⟩ := buildFundLookup_entries e.cover (k, b) hkb f hfb
  refine ⟨hne, ?_⟩
  rw [hidem]
  exact hne

/-- C8 witness: a concrete two-fund index searched with "fund", checked
through the theorem. -/
theorem C8_search_funds_bounds_witness :
    pyStrip (pyLower "fund") ≠ ""
    ∧ (searchFunds ⟨[⟨"A1", some "Alpha Fund"⟩, ⟨"A2", some "Beta Fund"⟩], []⟩ "fund" 1).length ≤ 1
    ∧ ∀ f ∈ searchFunds ⟨[⟨"A1", some "Alpha Fund"⟩, ⟨"A2", some "Beta Fund"⟩], []⟩ "fund" 1,
        f.name ≠ "" ∧ pyStrip f.name ≠ "" := by
  refine ⟨by decide, ?_, ?_⟩
  · exact (C8_search_funds_bounds ⟨[⟨"A1", some "Alpha Fund"⟩, ⟨"A2", some "Beta Fund"⟩], []⟩
      "fund" 1 (by decide)).1
  · exact (C8_search_funds_bounds ⟨[⟨"A1", some "Alpha Fund"⟩, ⟨"A2", some "Beta Fund"⟩], []⟩
      "fund" 1 (by decide)).2

/-! ## C3: chunk concatenation order -/

theorem startsWithL_append (l t : List Char) : startsWithL l (l ++ t) = true := by
  induction l with
  | nil => rfl
  | cons c cs ih => simp [startsWithL, ih]

/-- Every generated chunk filename matches the INFOTABLE_chunk_ filter. -/
theorem chunk_name_startsWith (k : Nat) :
    startsWithL "INFOTABLE_chunk_".data (chunkFileName k).data = true := by
  have h : (chunkFileName k).data =
      "INFOTABLE_chunk_".data ++ ((toString k).data ++ ".tsv".data) := by
    simp [chunkFileName, String.data_append, List.append_assoc]
  rw [h]
  exact startsWithL_append _ _

/-- Among single-digit chunk numbers, the numeric order and the lexicographic
filename order agree. -/
theorem chunk_name_lt (n m : Nat) (h1 : 1 ≤ n) (h2 : n < m) (h3 : m ≤ 9) :
    pyStrLtChars (chunkFileName n).data (chunkFileName m).data = true := by
  have hn9 : n ≤ 9 := le_trans (Nat.le_of_lt h2) h3
  interval_cases n <;> interval_cases m <;> decide

/-- A two-element chunk directory listed in reverse lexicographic name order
is reassembled with the lexicographically smaller file first: its header
opens the output (once) and its rows precede the other rows. -/
theorem loadFromChunks_pair (f1 f2 : ChunkFile)
    (h1 : startsWithL "INFOTABLE_chunk_".data f1.name.data = true)
    (h2 : startsWithL "INFOTABLE_chunk_".data f2.name.data = true)
    (hlt : pyStrLtChars f2.name.data f1.name.data = true) :
    loadFromChunks [f1, f2] = some (f2.header, f2.rows ++ f1.rows) := by
  simp [loadFromChunks, List.filter, h1, h2, sortByB, insertSorted, pyStrLeB, hlt]

/-- C3, counterexample: with chunk files numbered 2 and 10, Python sorted on
the filenames puts INFOTABLE_chunk_10.tsv before INFOTABLE_chunk_2.tsv, so
the data rows of chunk 10 precede those of chunk 2 in the combined table,
although 2 < 10 — refuting the ascending-numeric-order part of the claim. -/
theorem C3_counterexample :
    loadFromChunks [⟨chunkFileName 2, "H", ["row2"]⟩, ⟨chunkFileName 10, "H", ["row10"]⟩] =
      some ("H", ["row10", "row2"])
    ∧ (some (("H" : String), (["row10", "row2"] : List String)) ≠
        some ("H", ["row2", "row10"])) := by
  exact ⟨by decide, by decide⟩

/-- C3, amended: the chunks are concatenated in ascending lexicographic
filename order with exactly one header row; for chunk numbers of equal digit
length — in particular any pair of single-digit chunk numbers n < m — this
coincides with ascending numeric order, so chunk n precedes chunk m and the
scenario with 3 and 2 data rows yields the single header followed by the 5
data rows. -/
theorem C3_amended_order (n m : Nat) (h1 : 1 ≤ n) (h2 : n < m) (h3 : m ≤ 9)
    (hdrN hdrM : String) (dn dm : List String) :
    loadFromChunks [⟨chunkFileName m, hdrM, dm⟩, ⟨chunkFileName n, hdrN, dn⟩] =
      some (hdrN, dn ++ dm) := by
  exact loadFromChunks_pair ⟨chunkFileName m, hdrM, dm⟩ ⟨chunkFileName n, hdrN, dn⟩
    (chunk_name_startsWith m) (chunk_name_startsWith n) (chunk_name_lt n m h1 h2 h3)

/-- C3 witness: chunks 1 (3 data rows) and 2 (2 data rows) produce one header
and the 5 data rows of chunk 1 then chunk 2. -/
theorem C3_amended_order_witness :
    (1 ≤ 1 ∧ 1 < 2 ∧ 2 ≤ 9)
    ∧ loadFromChunks
        [⟨chunkFileName 2, "H", ["r4", "r5"]⟩, ⟨chunkFileName 1, "H", ["r1", "r2", "r3"]⟩] =
      some ("H", ["r1", "r2", "r3", "r4", "r5"]) := by
  refine ⟨by decide, ?_⟩
  exact C3_amended_order 1 2 (by decide) (by decide) (by decide) "H" "H"
    ["r1", "r2", "r3"] ["r4", "r5"]

/-! ## C6: security holders scenario -/

/-- C6: with APPLE INC held twice under accession A1 (values 100 and 50,
Fund X) and once under A2 (value 30, Fund Y), getSecurityHolders "apple"
returns exactly Fund X with 150 then Fund Y with 30, descending by value;
and with both accessions filed by the same manager the rows are summed
across accessions into a single 180 row rather than de-duplicated. -/
theorem C6_security_holders :
    getSecurityHolders
      ⟨[⟨"A1", some "Fund X"⟩, ⟨"A2", some "Fund Y"⟩],
       [⟨"A1", "APPLE INC", "COM", 100, 10, "c", ""⟩,
        ⟨"A1", "APPLE INC", "COM", 50, 5, "c", ""⟩,
        ⟨"A2", "APPLE INC", "COM", 30, 3, "c", ""⟩]⟩ "apple" 50 =
      [⟨"Fund X", 150, 15⟩, ⟨"Fund Y", 30, 3⟩]
    ∧ getSecurityHolders
        ⟨[⟨"A1", some "Fund X"⟩, ⟨"A2", some "Fund X"⟩],
         [⟨"A1", "APPLE INC", "COM", 100, 10, "c", ""⟩,
          ⟨"A1", "APPLE INC", "COM", 50, 5, "c", ""⟩,
          ⟨"A2", "APPLE INC", "COM", 30, 3, "c", ""⟩]⟩ "apple" 50 =
      [⟨"Fund X", 180, 18⟩] := by
  exact ⟨by decide, by decide⟩

/-! ## C2: the empty query -/

/-- C2, counterexample: the empty string is a substring of every index key,
so the substring tier of searchFunds and searchSecurities matches every key;
on a loaded, non-empty index an empty (or whitespace-only) query returns
indexed entries, not the empty list the claim demands. -/
theorem C2_counterexample :
    searchFunds ⟨[⟨"A1", some "Alpha Fund"⟩], []⟩ "" 20 = [⟨"Alpha Fund", "A1"⟩]
    ∧ ([(⟨"Alpha Fund", "A1"⟩ : FundRef)] ≠ [])
    ∧ searchSecurities ⟨[], [⟨"A1", "APPLE INC", "COM", 1, 1, "c", ""⟩]⟩ "  " 20 =
        [⟨"APPLE INC", "c", "COM"⟩]
    ∧ ([(⟨"APPLE INC", "c", "COM"⟩ : SecRef)] ≠ []) := by
  exact ⟨by decide, by decide, by decide, by decide⟩

/-! ## C9: per-ticker failure isolation of batch enrichment -/

/-- C9: the batch result has an entry for every input ticker, each entry is
exactly the per-ticker computation (so one ticker cannot disturb another),
and a ticker whose price or sector lookup raises degrades to the
(null price change, "Unknown" sector) entry. -/
theorem C9_batch_isolation (priceOracle : String → Except String (Option ℚ))
    (sectorOracle : String → Option String → Except String String)
    (names : String → Option String) (tickers : List String) (t : String)
    (ht : t ∈ tickers) :
    lookupDict (get_stock_info_batch priceOracle sectorOracle names tickers) t =
      some (processTicker priceOracle sectorOracle names t)
    ∧ (∀ e, priceOracle t = Except.error e →
        processTicker priceOracle sectorOracle names t = ⟨none, "Unknown"⟩)
    ∧ (∀ pc e, priceOracle t = Except.ok pc → sectorOracle t (names t) = Except.error e →
        processTicker priceOracle sectorOracle names t = ⟨none, "Unknown"⟩) := by
  refine ⟨?_, fun e he => ?_, fun pc e hok he => ?_⟩
  · exact lookupDict_foldl_insert_mem _ tickers [] t ht
  · simp [processTicker, he]
  · simp [processTicker, hok, he]

/-- C9 witness: one failing ticker among healthy ones, evaluated through the
theorem. -/
theorem C9_batch_isolation_witness :
    "BAD" ∈ ["AAPL", "BAD", "MSFT"]
    ∧ lookupDict (get_stock_info_batch
        (fun t => if t = "BAD" then Except.error "boom" else Except.ok (some 1))
        (fun _ _ => Except.ok "Technology") (fun _ => none) ["AAPL", "BAD", "MSFT"]) "BAD" =
      some (processTicker
        (fun t => if t = "BAD" then Except.error "boom" else Except.ok (some 1))
        (fun _ _ => Except.ok "Technology") (fun _ => none) "BAD") := by
  refine ⟨by decide, ?_⟩
  exact (C9_batch_isolation
    (fun t => if t = "BAD" then Except.error "boom" else Except.ok (some 1))
    (fun _ _ => Except.ok "Technology") (fun _ => none) ["AAPL", "BAD", "MSFT"] "BAD"
    (by decide)).1
